import Mathlib

/-!
# Verification of the Competitions ingestion pipeline

Shallow embedding of the deduplication / provenance-merge core of the
Competitions repository (src/scrapers.rs, src/models.rs).

Modelling conventions:
* Rust strings are modelled as lists of characters (`Str`); `str::len`
  (a byte count) is modelled by `utf8Len`, the sum of the UTF-8 sizes of
  the characters, so byte-based and character-based lengths are kept
  distinct exactly as in the source.
* `to_lowercase` is modelled by ASCII case folding (the titles and source
  identifiers handled by the pipeline are ASCII).
* The `f32` / `f64` ratio comparisons of the source are modelled in exact
  rational arithmetic (`ℚ`).  For the operand sizes reachable here the
  floating-point comparisons against the literal thresholds agree with
  the exact comparisons, since the ratios are quotients of small naturals.
* The MongoDB collection is modelled as a list of `Competition` records;
  a `$set {source}` update is a record update of the `source` field.
-/

set_option maxRecDepth 40000

namespace Competitions

abbrev Str := List Char

/-- ASCII case folding; models Rust `str::to_lowercase` on one character. -/
def asciiLower (c : Char) : Char :=
  if 'A' ≤ c ∧ c ≤ 'Z' then Char.ofNat (c.toNat + 32) else c

/-- Models Rust `str::to_lowercase`. -/
def lowerStr (s : Str) : Str := s.map asciiLower

/-- ASCII whitespace, as recognised by Rust `char::is_whitespace` /
the regex class `\s` on ASCII input. -/
def isWs (c : Char) : Bool :=
  c = ' ' || c = '\t' || c = '\n' || c = '\r' || c = Char.ofNat 11 || c = Char.ofNat 12

/-- Leading-whitespace removal (half of Rust `str::trim`). -/
def trimLeft (s : Str) : Str := s.dropWhile isWs

/-- Trailing-whitespace removal (half of Rust `str::trim`). -/
def trimRight (s : Str) : Str := (s.reverse.dropWhile isWs).reverse

/-- Models Rust `str::trim`. -/
def trim (s : Str) : Str := trimRight (trimLeft s)

/-- Boolean `List.IsPrefix`; models the prefix test underlying
Rust `str::contains` and `str::replace`. -/
def isPrefOf : Str → Str → Bool
  | [], _ => true
  | _ :: _, [] => false
  | a :: as, b :: bs => a = b && isPrefOf as bs

/-- Models Rust `haystack.contains(needle)` (substring search);
first argument is the haystack. -/
def containsSub : Str → Str → Bool
  | [], pat => pat.isEmpty
  | c :: rest, pat => isPrefOf pat (c :: rest) || containsSub rest pat

/-- Fuel-indexed worker for `removeAll`.  The fuel is an upper bound on the
length of the string, so the `0` case is unreachable from `removeAll`. -/
def removeAllAux (p : Str) : Nat → Str → Str
  | _, [] => []
  | 0, s => s
  | fuel + 1, c :: rest =>
    if p ≠ [] ∧ isPrefOf p (c :: rest) = true then
      removeAllAux p fuel (rest.drop (p.length - 1))
    else
      c :: removeAllAux p fuel rest

/-- Models Rust `s.replace(p, "")` for a non-empty pattern `p`: every
non-overlapping occurrence of `p`, scanning left to right, is removed.
(All patterns used by the source are non-empty; the `p ≠ []` guard only
makes the function total on that dead case.) -/
def removeAll (p s : Str) : Str := removeAllAux p s.length s

/-- Worker for `splitWs`, carrying the reversed current word. -/
def splitWsAux : Str → Str → List Str
  | acc, [] => if acc = [] then [] else [acc.reverse]
  | acc, c :: rest =>
    if isWs c then
      if acc = [] then splitWsAux [] rest else acc.reverse :: splitWsAux [] rest
    else
      splitWsAux (c :: acc) rest

/-- Models Rust `str::split_whitespace`: the maximal whitespace-free
non-empty chunks, in order. -/
def splitWs (s : Str) : List Str := splitWsAux [] s

/-- Models `Vec::join(" ")`. -/
def wsJoin : List Str → Str
  | [] => []
  | [x] => x
  | x :: y :: rest => x ++ ' ' :: wsJoin (y :: rest)

/-- Models `Vec::join(", ")`. -/
def sourceJoin : List Str → Str
  | [] => []
  | [x] => x
  | x :: y :: rest => x ++ ',' :: ' ' :: sourceJoin (y :: rest)

/-- `allWsB s` holds when every character of `s` is whitespace. -/
def allWsB (s : Str) : Bool := s.all isWs

/-- Matching of the part of the tag regex `\s*\[.*?\]\s*$` that follows the
opening bracket: some (lazily chosen) `]` closes the tag and only
whitespace follows it; the `.*?` span may not cross a newline. -/
def tagTail : Str → Bool
  | [] => false
  | c :: rest => (c = ']' && allWsB rest) || (c ≠ '\n' && tagTail rest)

/-- A match of `\s*\[.*?\]\s*$` starts exactly at this suffix: an optional
whitespace run, an opening bracket, then `tagTail`. -/
def matchAt (s : Str) : Bool :=
  match s.dropWhile isWs with
  | c :: rest => c = '[' && tagTail rest
  | [] => false

/-- Models `Regex::replace_all` with pattern `\s*\[.*?\]\s*$` and empty
replacement: the leftmost match (which necessarily extends to the end of
the string) is removed. -/
def stripTag : Str → Str
  | [] => []
  | c :: rest => if matchAt (c :: rest) then [] else c :: stripTag rest

/-- The stop-list of `clean_competition_name`, in the exact order of the
`.replace` chain of the source (scrapers.rs lines 266-322). -/
def stopPatterns : List Str :=
  [ "HKU".toList, "UST".toList, "HKUST".toList,
    "The".toList, "the".toList, "A".toList, "a".toList,
    "An".toList, "an".toList, "And".toList, "and".toList,
    "Of".toList, "of".toList, "In".toList, "in".toList,
    "On".toList, "on".toList, "At".toList, "at".toList,
    "To".toList, "to".toList, "For".toList, "for".toList,
    "With".toList, "with".toList, "By".toList, "by".toList,
    "Up".toList, "up".toList,
    "Competition".toList, "competition".toList, "Case".toList, "case".toList,
    "Challenge".toList, "challenge".toList, "Hackathon".toList, "hackathon".toList,
    "Datathon".toList, "datathon".toList, "Program".toList, "program".toList,
    "Event".toList, "event".toList, "Session".toList, "session".toList,
    "Workshop".toList, "workshop".toList, "Seminar".toList, "seminar".toList,
    "Deadline".toList, "deadline".toList, "Register".toList, "register".toList,
    "Join".toList, "join".toList, "NOW".toList, "now".toList ]

/-- Models `clean_competition_name` (scrapers.rs lines 260-329): strip the
trailing bracketed source tag, trim, run the `.replace(_, "")` chain in
order, then trim and collapse whitespace runs
(`split_whitespace` + `join(" ")`). -/
def clean_competition_name (name : Str) : Str :=
  let cleaned := trim (stripTag name)
  let removed := stopPatterns.foldl (fun s p => removeAll p s) cleaned
  wsJoin (splitWs (trim removed))

/-- Byte length of the UTF-8 encoding; models Rust `str::len`. -/
def utf8Len (s : Str) : Nat := (s.map Char.utf8Size).sum

/-- `common_chars` of `calculate_similarity`: the characters of `t1`
counted with multiplicity that occur anywhere in `t2`. -/
def simCommon (t1 t2 : Str) : Nat := (t1.filter fun c => t2.contains c).length

/-- `total_chars` of `calculate_similarity`: the larger byte length. -/
def simTotal (t1 t2 : Str) : Nat := max (utf8Len t1) (utf8Len t2)

/-- Models `calculate_similarity` (scrapers.rs lines 332-355): after
trimming and lowercasing, the number of characters of `s1` (with
multiplicity) that occur anywhere in `s2`, divided by the larger byte
length; with special cases for empty and equal strings. -/
def calculate_similarity (s1 s2 : Str) : ℚ :=
  let t1 := lowerStr (trim s1)
  let t2 := lowerStr (trim s2)
  if t1 = [] ∧ t2 = [] then 1
  else if t1 = [] ∨ t2 = [] then 0
  else if t1 = t2 then 1
  else if simTotal t1 t2 = 0 then 0
  else (simCommon t1 t2 : ℚ) / (simTotal t1 t2 : ℚ)

/-- Kernel-evaluable mirror of the comparison
`(a : ℚ) / b < calculate_similarity s1 s2` (for `0 < b`), obtained by
cross-multiplying the final ratio; `simGtB_eq` proves the equivalence. -/
def simGtB (s1 s2 : Str) (a b : Nat) : Bool :=
  let t1 := lowerStr (trim s1)
  let t2 := lowerStr (trim s2)
  if t1 = [] ∧ t2 = [] then decide (a < b)
  else if t1 = [] ∨ t2 = [] then false
  else if t1 = t2 then decide (a < b)
  else if simTotal t1 t2 = 0 then false
  else decide (a * simTotal t1 t2 < b * simCommon t1 t2)

/-- The comparison key of a title: cleaned then lowercased, exactly as
computed at the top of `fuzzy_match`. -/
def titleKey (t : Str) : Str := lowerStr (clean_competition_name t)

/-- Decision 1 of `fuzzy_match`: cleaned titles equal case-insensitively. -/
def condEqual (a b : Str) : Bool := titleKey a = titleKey b

/-- Decision 2 of `fuzzy_match`: one cleaned (case-folded) title contains
the other as a substring. -/
def condContain (a b : Str) : Bool :=
  containsSub (titleKey a) (titleKey b) || containsSub (titleKey b) (titleKey a)

/-- Decision 3 of `fuzzy_match`: character similarity of the keys
above `0.75`. -/
def condSimilar (a b : Str) : Bool :=
  decide ((3 : ℚ) / 4 < calculate_similarity (titleKey a) (titleKey b))

/-- The common-word count of `fuzzy_match` (scrapers.rs lines 226-242):
words of the first key longer than 2 bytes having some word of the second
key longer than 2 bytes that is equal, contained either way, or more than
`0.7`-similar. -/
def commonWordCount (a b : Str) : Nat :=
  let words1 := splitWs (titleKey a)
  let words2 := splitWs (titleKey b)
  (words1.filter fun w1 =>
    decide (2 < utf8Len w1) &&
    words2.any fun w2 =>
      decide (2 < utf8Len w2) &&
      (w1 = w2 || containsSub w1 w2 || containsSub w2 w1 ||
        decide ((7 : ℚ) / 10 < calculate_similarity w1 w2))).length

/-- Decision 4 of `fuzzy_match`: common words over the larger word count
above `0.5` (guarded by a non-empty word list). -/
def condWordOverlap (a b : Str) : Bool :=
  let maxLen := max (splitWs (titleKey a)).length (splitWs (titleKey b)).length
  decide (0 < maxLen) &&
    decide ((1 : ℚ) / 2 < (commonWordCount a b : ℚ) / (maxLen : ℚ))

/-- Decision 5 of `fuzzy_match`: common words over the number of distinct
words of both keys combined above `0.4` (guarded by non-emptiness). -/
def condJaccardish (a b : Str) : Bool :=
  let allWords := ((splitWs (titleKey a)) ++ (splitWs (titleKey b))).dedup
  decide (allWords ≠ []) &&
    decide ((2 : ℚ) / 5 < (commonWordCount a b : ℚ) / (allWords.length : ℚ))

/-- Models `fuzzy_match` (scrapers.rs lines 202-257): the five decisions,
evaluated in order, short-circuiting on the first that holds. -/
def fuzzy_match (name1 name2 : Str) : Bool :=
  if condEqual name1 name2 then true
  else if condContain name1 name2 then true
  else if condSimilar name1 name2 then true
  else if condWordOverlap name1 name2 then true
  else if condJaccardish name1 name2 then true
  else false

/-- The decision procedure exactly as the specification words it: a
disjunction of the five conditions (Boolean disjunction evaluates its
arguments in order and short-circuits on the first true one). -/
def fuzzyMatchSpec (a b : Str) : Bool :=
  condEqual a b || condContain a b || condSimilar a b ||
    condWordOverlap a b || condJaccardish a b

/-- Kernel-evaluable mirror of `commonWordCount` (`commonWordCountB_eq`). -/
def commonWordCountB (a b : Str) : Nat :=
  let words1 := splitWs (titleKey a)
  let words2 := splitWs (titleKey b)
  (words1.filter fun w1 =>
    decide (2 < utf8Len w1) &&
    words2.any fun w2 =>
      decide (2 < utf8Len w2) &&
      (w1 = w2 || containsSub w1 w2 || containsSub w2 w1 || simGtB w1 w2 7 10)).length

/-- Kernel-evaluable mirror of `fuzzy_match` (`fuzzy_match_eq_b`), with all
rational threshold comparisons cross-multiplied away. -/
def fuzzyMatchB (a b : Str) : Bool :=
  if titleKey a = titleKey b then true
  else if containsSub (titleKey a) (titleKey b) || containsSub (titleKey b) (titleKey a) then true
  else if simGtB (titleKey a) (titleKey b) 3 4 then true
  else
    let common := commonWordCountB a b
    let maxLen := max (splitWs (titleKey a)).length (splitWs (titleKey b)).length
    if 0 < maxLen ∧ maxLen < 2 * common then true
    else if ((splitWs (titleKey a)) ++ (splitWs (titleKey b))).dedup ≠ [] ∧
        2 * ((splitWs (titleKey a)) ++ (splitWs (titleKey b))).dedup.length < 5 * common then true
    else false

/-- The `Competition` record (models.rs lines 7-27).  `ObjectId` is
modelled as `Nat`, `DateTime<Utc>` as an `Int` timestamp. -/
structure Competition where
  id : Option Nat
  name : Str
  date : Int
  host : Str
  source : Str
  description : Option Str
  signup_deadline : Option Int
  location : Option Str
  registration_link : Option Str
  max_participants : Option Int
  status : Option Str
deriving DecidableEq

/-- Models Rust `str::split(',')`: split at every comma, keeping empty
pieces; the empty string yields one empty piece. -/
def splitComma : Str → List Str
  | [] => [[]]
  | c :: rest =>
    if c = ',' then [] :: splitComma rest
    else
      match splitComma rest with
      | [] => [[c]]
      | w :: ws => (c :: w) :: ws

/-- The parsed provenance list of a stored `source` field:
`source.split(',').map(|s| s.trim())` (scrapers.rs line 373). -/
def parseSources (field : Str) : List Str := (splitComma field).map trim

/-- The per-record body of `update_existing_competition_source`
(scrapers.rs lines 369-386): parse the stored `source` field, and if the
scraper name is not already a member push it and write back the re-joined
list (`none` models the absence of a database write). -/
def update_existing_competition_source (field scraperName : Str) : Option Str :=
  let sources := parseSources field
  if scraperName ∈ sources then none
  else some (sourceJoin (sources ++ [scraperName]))

/-- The catalog-level effect of `update_existing_competition_source`:
every stored record whose name fuzzy-matches gets its `source` field
updated in place (`$set` touches only `source`); everything else is
untouched. -/
def updateMatchingSources (catalog : List Competition) (name scraperName : Str) :
    List Competition :=
  catalog.map fun c =>
    if fuzzy_match name c.name then
      match update_existing_competition_source c.source scraperName with
      | some s => { c with source := s }
      | none => c
    else c

/-- Models `is_duplicate_competition` (scrapers.rs lines 184-199). -/
def is_duplicate_competition (catalog : List Competition) (newComp : Competition) :
    Bool :=
  catalog.any fun existing => fuzzy_match newComp.name existing.name

/-- The per-candidate step of every scraper loop (e.g. scrapers.rs lines
80-87): a non-duplicate candidate is kept for insertion, a duplicate is
folded into the matching records by a provenance merge. -/
def scrapeStep (catalog : List Competition) (cand : Competition)
    (scraperName : Str) : List Competition × Option Competition :=
  if is_duplicate_competition catalog cand then
    (updateMatchingSources catalog cand.name scraperName, none)
  else
    (catalog, some cand)

/-- Models `ScraperManager::run_all_scrapers` (scrapers.rs lines 507-525)
over the list of per-scraper outcomes: failures are logged and skipped,
successful candidate lists are appended, and the function always returns
`ok`. -/
def run_all_scrapers (results : List (Except Str (List Competition))) :
    Except Str (List Competition) :=
  Except.ok (results.foldl
    (fun acc r =>
      match r with
      | Except.ok cs => acc ++ cs
      | Except.error _ => acc)
    [])

/-- The candidates of the successful outcomes, in order. -/
def okCandidates (results : List (Except Str (List Competition))) :
    List Competition :=
  (results.filterMap fun r =>
    match r with
    | Except.ok cs => some cs
    | Except.error _ => none).flatten

/-- Whether an outcome is a success. -/
def isOkResult (r : Except Str (List Competition)) : Bool :=
  match r with
  | Except.ok _ => true
  | Except.error _ => false

/-- One item of the CTFTime JSON API response (a field is `none` when it
is absent or not of the expected JSON type). -/
structure CtfEvent where
  title : Option Str
  start : Option Str
  finish : Option Str
  url : Option Str
  description : Option Str
  max_team_size : Option Int
deriving DecidableEq

/-- The extraction loop of `CtfTimeScraper::scrape` (scrapers.rs lines
419-458): an item lacking `title`, `start` or `finish` is skipped; `url`
and `description` fall back to the empty string; `start` is parsed with a
fallback to the fetch time `now`. -/
def ctftime_extract (now : Int) (parseRfc3339 : Str → Option Int)
    (events : List CtfEvent) : List Competition :=
  events.filterMap fun e =>
    match e.title, e.start, e.finish with
    | some title, some start, some _ =>
      let url := e.url.getD []
      let description := e.description.getD []
      some
        { id := none
          name := title ++ " [CTF]".toList
          date := (parseRfc3339 start).getD now
          host := "CTFTime".toList
          source := "CTFTime".toList
          description := if description = [] then none else some description
          signup_deadline := none
          location := some "Online".toList
          registration_link := if url = [] then none else some url
          max_participants := e.max_team_size
          status := some "upcoming".toList }
    | _, _, _ => none

/-- The scraper registry, modelled as an association list from lookup key
to scraper name (a scraper is identified by its `name()`). -/
def Registry := List (Str × Str)

/-- `HashMap::insert`: the new binding shadows, and replaces, any previous
binding of the same key. -/
def hmInsert (m : Registry) (k v : Str) : Registry :=
  (k, v) :: m.filter fun p => p.1 ≠ k

/-- Models `ScraperManager::register_scraper` (scrapers.rs lines 487-489):
a scraper is registered under the lower-cased form of its name. -/
def register_scraper (m : Registry) (name : Str) : Registry :=
  hmInsert m (lowerStr name) name

/-- A manager built by registering the given scraper names in order
(`ScraperManager::new` registers HKU, HKUST, CTFTime). -/
def buildManager (names : List Str) : Registry :=
  names.foldl register_scraper []

/-- Models `ScraperManager::run_scraper` (scrapers.rs lines 495-505):
look the requested name up after lower-casing it; `none` models the
"Scraper not found" error. -/
def run_scraper (m : Registry) (name : Str) : Option Str :=
  (m.find? fun p => p.1 = lowerStr name).map Prod.snd

/-! ## Substring machinery -/

theorem isPrefOf_iff (p s : Str) : isPrefOf p s = true ↔ p <+: s := by
  induction p generalizing s with
  | nil => simp [isPrefOf]
  | cons a as ih =>
    cases s with
    | nil => simp [isPrefOf]
    | cons b bs =>
      simp [isPrefOf, ih, List.cons_prefix_cons]

theorem containsSub_iff (s p : Str) : containsSub s p = true ↔ p <:+: s := by
  induction s with
  | nil => simp [containsSub, List.isEmpty_iff]
  | cons c rest ih =>
    simp [containsSub, isPrefOf_iff, ih, List.infix_cons_iff]

theorem containsSub_nil_pat (s : Str) : containsSub s [] = true := by
  rw [containsSub_iff]
  exact List.nil_infix

theorem containsSub_false_of_infix {s t p : Str} (hsub : t <:+: s)
    (h : containsSub s p = false) : containsSub t p = false := by
  cases hc : containsSub t p with
  | false => rfl
  | true =>
    have : containsSub s p = true :=
      (containsSub_iff s p).2 (((containsSub_iff t p).1 hc).trans hsub)
    rw [this] at h
    cases h

/-! ## Lemmas about `removeAll` -/

theorem removeAllAux_eq_self (p : Str) :
    ∀ fuel s, s.length ≤ fuel → containsSub s p = false → removeAllAux p fuel s = s := by
  intro fuel
  induction fuel with
  | zero =>
    intro s hs _
    cases s with
    | nil => rfl
    | cons c r => simp at hs
  | succ fuel ih =>
    intro s hs hc
    cases s with
    | nil => rfl
    | cons c r =>
      rw [containsSub, Bool.or_eq_false_iff] at hc
      rw [removeAllAux, if_neg, ih r (by simpa using Nat.le_of_succ_le_succ hs) hc.2]
      rintro ⟨-, hpref⟩
      rw [hc.1] at hpref
      cases hpref

theorem removeAll_eq_self {p s : Str} (h : containsSub s p = false) :
    removeAll p s = s :=
  removeAllAux_eq_self p s.length s (Nat.le_refl _) h

theorem removeAllAux_length_le (p : Str) :
    ∀ fuel s, (removeAllAux p fuel s).length ≤ s.length := by
  intro fuel
  induction fuel with
  | zero =>
    intro s
    cases s with
    | nil => simp [removeAllAux]
    | cons c r => simp [removeAllAux]
  | succ fuel ih =>
    intro s
    cases s with
    | nil => simp [removeAllAux]
    | cons c r =>
      rw [removeAllAux]
      split
      · calc (removeAllAux p fuel (r.drop (p.length - 1))).length
            ≤ (r.drop (p.length - 1)).length := ih _
          _ ≤ r.length := by simp
          _ ≤ (c :: r).length := by simp
      · simpa using ih r

theorem removeAllAux_length_lt (p : Str) (hp : p ≠ []) :
    ∀ fuel s, s.length ≤ fuel → containsSub s p = true →
      (removeAllAux p fuel s).length < s.length := by
  intro fuel
  induction fuel with
  | zero =>
    intro s hs hc
    cases s with
    | nil =>
      cases p with
      | nil => exact absurd rfl hp
      | cons a as => simp [containsSub, List.isEmpty] at hc
    | cons c r => simp at hs
  | succ fuel ih =>
    intro s hs hc
    cases s with
    | nil =>
      cases p with
      | nil => exact absurd rfl hp
      | cons a as => simp [containsSub, List.isEmpty] at hc
    | cons c r =>
      rw [removeAllAux]
      split
      · rename_i hcase
        have hplen : 1 ≤ p.length := by
          cases p with
          | nil => exact absurd rfl hp
          | cons a as => simp
        calc (removeAllAux p fuel (r.drop (p.length - 1))).length
            ≤ (r.drop (p.length - 1)).length := removeAllAux_length_le p fuel _
          _ ≤ r.length := by simp
          _ < (c :: r).length := by simp
      · rename_i hcase
        have hpref : isPrefOf p (c :: r) = false := by
          cases hpf : isPrefOf p (c :: r) with
          | false => rfl
          | true => exact absurd ⟨hp, hpf⟩ hcase
        rw [containsSub, hpref, Bool.false_or] at hc
        have := ih r (by simpa using Nat.le_of_succ_le_succ hs) hc
        simpa using Nat.succ_lt_succ this

theorem removeAll_ne_self {p s : Str} (hp : p ≠ []) (h : containsSub s p = true) :
    removeAll p s ≠ s := by
  intro heq
  have := removeAllAux_length_lt p hp s.length s (Nat.le_refl _) h
  rw [removeAll] at heq
  rw [heq] at this
  exact Nat.lt_irrefl _ this

theorem stopPatterns_ne_nil : ∀ p ∈ stopPatterns, p ≠ [] := by decide

/-! ## Claim theorems: matching decision list, empty key, removal, adapters -/

/-- Claim C1: `fuzzy_match` returns true exactly when the five decisions of
the specification — key equality, substring containment either way,
character similarity above 0.75, common-word ratio above 0.5, jaccardish
ratio above 0.4 — hold as a short-circuited ordered disjunction, and
returns no match otherwise. -/
theorem fuzzy_match_decision_list (a b : Str) : fuzzy_match a b = fuzzyMatchSpec a b := by
  rw [fuzzy_match, fuzzyMatchSpec]
  cases h1 : condEqual a b <;> cases h2 : condContain a b <;>
    cases h3 : condSimilar a b <;> cases h4 : condWordOverlap a b <;>
    cases h5 : condJaccardish a b <;> simp

/-- Claim C4 (counterexample): the stop-list entry "in" occurs in "Winter"
only as a substring of a longer word, yet normalization changes the word:
the removal step is not whole-token. -/
theorem clean_mangles_inner_word :
    clean_competition_name ("Winter".toList) = "Wter".toList ∧
      "Wter".toList ≠ "Winter".toList := by
  constructor
  · decide
  · decide

/-- Claim C4 (amended): the stop-list removal is substring replacement,
not whole-token removal: a replace pass for a stop-list entry leaves a
string unchanged exactly when the entry does not occur anywhere in it as
a substring, so any word merely containing an entry is mangled. -/
theorem stop_removal_is_substring (p s : Str) (hp : p ∈ stopPatterns) :
    removeAll p s = s ↔ containsSub s p = false := by
  have hne : p ≠ [] := stopPatterns_ne_nil p hp
  constructor
  · intro heq
    cases hc : containsSub s p with
    | false => rfl
    | true => exact absurd heq (removeAll_ne_self hne hc)
  · exact removeAll_eq_self

/-- Witness for `stop_removal_is_substring` at the stop-list entry "in"
and the title "Winter". -/
theorem stop_removal_is_substring_witness :
    ("in".toList ∈ stopPatterns) ∧
      (removeAll ("in".toList) ("Winter".toList) = "Winter".toList ↔
        containsSub ("Winter".toList) ("in".toList) = false) :=
  ⟨by decide, stop_removal_is_substring ("in".toList) ("Winter".toList) (by decide)⟩

/-- Claim C9: a title whose cleaned form is empty fuzzy-matches every
title whatsoever, because the empty key is a substring of every key. -/
theorem empty_key_matches_everything (a b : Str)
    (h : clean_competition_name a = []) : fuzzy_match a b = true := by
  have hk : titleKey a = [] := by rw [titleKey, h]; rfl
  rw [fuzzy_match]
  by_cases he : condEqual a b = true
  · rw [if_pos he]
  · have hc : condContain a b = true := by
      rw [condContain, hk, containsSub_nil_pat, Bool.or_true]
    rw [if_neg (by simpa using he), if_pos hc]

/-- Witness for `empty_key_matches_everything`: "The" cleans to the empty
string and fuzzy-matches the unrelated title "Hello World". -/
theorem empty_key_matches_everything_witness :
    clean_competition_name ("The".toList) = [] ∧
      fuzzy_match ("The".toList) ("Hello World".toList) = true :=
  ⟨by decide, empty_key_matches_everything ("The".toList) ("Hello World".toList) (by decide)⟩

theorem foldl_collect_ok (results : List (Except Str (List Competition)))
    (acc : List Competition) :
    results.foldl
      (fun acc r =>
        match r with
        | Except.ok cs => acc ++ cs
        | Except.error _ => acc)
      acc = acc ++ okCandidates results := by
  induction results generalizing acc with
  | nil => simp [okCandidates]
  | cons r rs ih =>
    cases r with
    | ok cs => simp [okCandidates, List.filterMap_cons, ih]
    | error e => simp [okCandidates, List.filterMap_cons, ih]

theorem okCandidates_filter (results : List (Except Str (List Competition))) :
    okCandidates (results.filter isOkResult) = okCandidates results := by
  induction results with
  | nil => rfl
  | cons r rs ih =>
    cases r with
    | ok cs => simp [okCandidates, isOkResult, List.filterMap_cons] at ih ⊢; exact ih
    | error e => simp [okCandidates, isOkResult, List.filterMap_cons] at ih ⊢; exact ih

/-- Claim C7: one scraper's failure never blocks the others: a
`run_all_scrapers` pass always returns `ok`, collecting exactly the
candidates of the successful scrapers, and removing the failing outcomes
from the input changes nothing. -/
theorem run_all_scrapers_isolated (results : List (Except Str (List Competition))) :
    run_all_scrapers results = Except.ok (okCandidates results) ∧
      run_all_scrapers (results.filter isOkResult) = run_all_scrapers results := by
  constructor
  · rw [run_all_scrapers, foldl_collect_ok]
    simp
  · rw [run_all_scrapers, run_all_scrapers, foldl_collect_ok, foldl_collect_ok,
      okCandidates_filter]

/-- Claim C8: a CTFTime JSON item missing `title`, `start` or `finish` is
skipped: it produces no candidate, raises no error, and the surrounding
well-formed items are still extracted. -/
theorem ctftime_missing_field_skipped (now : Int) (parse : Str → Option Int)
    (xs ys : List CtfEvent) (e : CtfEvent)
    (h : e.title = none ∨ e.start = none ∨ e.finish = none) :
    ctftime_extract now parse (xs ++ e :: ys) =
      ctftime_extract now parse xs ++ ctftime_extract now parse ys := by
  rcases e with ⟨t, s, f, u, d, m⟩
  cases t <;> cases s <;> cases f <;>
    simp_all [ctftime_extract, List.filterMap_append, List.filterMap_cons]

def demoGood1 : CtfEvent :=
  ⟨some ("AlphaX".toList), some ("2026-01-01T00:00:00Z".toList),
    some ("2026-01-02T00:00:00Z".toList), none, none, none⟩

def demoBad : CtfEvent :=
  ⟨some ("BetaX".toList), some ("2026-01-01T00:00:00Z".toList), none, none, none, none⟩

def demoGood2 : CtfEvent :=
  ⟨some ("GammaX".toList), some ("bogus".toList), some ("bogus".toList),
    some ("http://x".toList), some ("desc".toList), some 5⟩

/-- Witness for `ctftime_missing_field_skipped`: a batch whose middle item
lacks `finish` extracts exactly the candidates of the two good items. -/
theorem ctftime_missing_field_skipped_witness :
    demoBad.finish = none ∧
      ctftime_extract 0 (fun _ => none) [demoGood1, demoBad, demoGood2] =
        ctftime_extract 0 (fun _ => none) [demoGood1] ++
          ctftime_extract 0 (fun _ => none) [demoGood2] :=
  ⟨rfl, ctftime_missing_field_skipped 0 (fun _ => none) [demoGood1] [demoGood2]
    demoBad (Or.inr (Or.inr rfl))⟩

/-! ## Similarity lemmas: bridging the rational and the evaluable forms -/

theorem utf8Len_pos {s : Str} (h : s ≠ []) : 0 < utf8Len s := by
  cases s with
  | nil => exact absurd rfl h
  | cons c r =>
    have hc : 0 < c.utf8Size := Char.utf8Size_pos c
    simp only [utf8Len, List.map_cons, List.sum_cons]
    omega

theorem length_le_utf8Len (s : Str) : s.length ≤ utf8Len s := by
  induction s with
  | nil => simp [utf8Len]
  | cons c r ih =>
    have hc : 0 < c.utf8Size := Char.utf8Size_pos c
    simp only [utf8Len, List.map_cons, List.sum_cons, List.length_cons] at ih ⊢
    omega

theorem simCommon_le_simTotal (t1 t2 : Str) : simCommon t1 t2 ≤ simTotal t1 t2 :=
  le_trans (le_trans (List.length_filter_le _ _) (length_le_utf8Len t1))
    (le_max_left _ _)

theorem ratio_lt_ratio_iff (a b c t : Nat) (hb : 0 < b) (ht : 0 < t) :
    ((a : ℚ) / (b : ℚ) < (c : ℚ) / (t : ℚ)) ↔ a * t < b * c := by
  rw [div_lt_div_iff₀ (by exact_mod_cast hb) (by exact_mod_cast ht),
    mul_comm (c : ℚ) (b : ℚ)]
  exact_mod_cast Iff.rfl

theorem simGtB_eq (s1 s2 : Str) (a b : Nat) (hb : 0 < b) :
    simGtB s1 s2 a b = decide ((a : ℚ) / (b : ℚ) < calculate_similarity s1 s2) := by
  simp only [simGtB, calculate_similarity]
  split_ifs with h1 h2 h3 h4
  · rw [decide_eq_decide, div_lt_one (by exact_mod_cast hb)]
    exact Nat.cast_lt.symm
  · have : ¬ ((a : ℚ) / (b : ℚ) < 0) :=
      not_lt.2 (div_nonneg (Nat.cast_nonneg a) (Nat.cast_nonneg b))
    simp [this]
  · rw [decide_eq_decide, div_lt_one (by exact_mod_cast hb)]
    exact Nat.cast_lt.symm
  · have : ¬ ((a : ℚ) / (b : ℚ) < 0) :=
      not_lt.2 (div_nonneg (Nat.cast_nonneg a) (Nat.cast_nonneg b))
    simp [this]
  · rw [decide_eq_decide,
      ratio_lt_ratio_iff a b _ _ hb (Nat.pos_of_ne_zero h4)]

theorem anyCongr {α : Type} {l : List α} {p q : α → Bool}
    (h : ∀ x ∈ l, p x = q x) : l.any p = l.any q := by
  induction l with
  | nil => rfl
  | cons x xs ih =>
    simp only [List.any_cons, h x (by simp)]
    rw [ih fun y hy => h y (by simp [hy])]

theorem sim7_eq (w1 w2 : Str) :
    decide ((7 : ℚ) / 10 < calculate_similarity w1 w2) = simGtB w1 w2 7 10 := by
  rw [simGtB_eq w1 w2 7 10 (by norm_num), decide_eq_decide]
  norm_num

theorem commonWordCount_eq_b (a b : Str) :
    commonWordCount a b = commonWordCountB a b := by
  simp only [commonWordCount, commonWordCountB]
  refine congrArg List.length (List.filter_congr ?_)
  intro w1 _
  simp only [sim7_eq]

theorem condSimilar_eq_b (a b : Str) :
    condSimilar a b = simGtB (titleKey a) (titleKey b) 3 4 := by
  rw [condSimilar, simGtB_eq _ _ 3 4 (by norm_num), decide_eq_decide]
  norm_num

theorem condWordOverlap_eq_b (a b : Str) :
    condWordOverlap a b =
      decide (0 < max (splitWs (titleKey a)).length (splitWs (titleKey b)).length ∧
        max (splitWs (titleKey a)).length (splitWs (titleKey b)).length <
          2 * commonWordCountB a b) := by
  simp only [condWordOverlap, ← commonWordCount_eq_b, Bool.decide_and]
  by_cases hm : 0 < max (splitWs (titleKey a)).length (splitWs (titleKey b)).length
  · have hiff : ((1 : ℚ) / 2 < (commonWordCount a b : ℚ) /
        ((max (splitWs (titleKey a)).length (splitWs (titleKey b)).length : Nat) : ℚ)) ↔
        max (splitWs (titleKey a)).length (splitWs (titleKey b)).length <
          2 * commonWordCount a b := by
      rw [div_lt_div_iff₀ (by norm_num) (by exact_mod_cast hm), one_mul,
        mul_comm ((commonWordCount a b : ℚ)) 2]
      exact_mod_cast Iff.rfl
    rw [show (decide ((1 : ℚ) / 2 < (commonWordCount a b : ℚ) /
        ((max (splitWs (titleKey a)).length (splitWs (titleKey b)).length : Nat) : ℚ))) =
        decide (max (splitWs (titleKey a)).length (splitWs (titleKey b)).length <
          2 * commonWordCount a b) from by rw [decide_eq_decide]; exact hiff]
  · have h0 : decide (0 < max (splitWs (titleKey a)).length (splitWs (titleKey b)).length) = false :=
      decide_eq_false hm
    rw [h0, Bool.false_and, Bool.false_and]

theorem condJaccardish_eq_b (a b : Str) :
    condJaccardish a b =
      decide (((splitWs (titleKey a)) ++ (splitWs (titleKey b))).dedup ≠ [] ∧
        2 * ((splitWs (titleKey a)) ++ (splitWs (titleKey b))).dedup.length <
          5 * commonWordCountB a b) := by
  simp only [condJaccardish, ← commonWordCount_eq_b, Bool.decide_and]
  by_cases hu : ((splitWs (titleKey a)) ++ (splitWs (titleKey b))).dedup = []
  · have h0 : decide (((splitWs (titleKey a)) ++ (splitWs (titleKey b))).dedup ≠ []) = false := by
      simp [hu]
    rw [h0, Bool.false_and, Bool.false_and]
  · have hpos : 0 < ((splitWs (titleKey a)) ++ (splitWs (titleKey b))).dedup.length := by
      cases h : ((splitWs (titleKey a)) ++ (splitWs (titleKey b))).dedup with
      | nil => exact absurd h hu
      | cons x xs => simp
    have hiff : ((2 : ℚ) / 5 < (commonWordCount a b : ℚ) /
        (((splitWs (titleKey a)) ++ (splitWs (titleKey b))).dedup.length : ℚ)) ↔
        2 * ((splitWs (titleKey a)) ++ (splitWs (titleKey b))).dedup.length <
          5 * commonWordCount a b := by
      rw [div_lt_div_iff₀ (by norm_num) (by exact_mod_cast hpos),
        mul_comm ((commonWordCount a b : ℚ)) 5]
      exact_mod_cast Iff.rfl
    rw [show (decide ((2 : ℚ) / 5 < (commonWordCount a b : ℚ) /
        (((splitWs (titleKey a)) ++ (splitWs (titleKey b))).dedup.length : ℚ))) =
        decide (2 * ((splitWs (titleKey a)) ++ (splitWs (titleKey b))).dedup.length <
          5 * commonWordCount a b) from by rw [decide_eq_decide]; exact hiff]

theorem fuzzy_match_eq_b (a b : Str) : fuzzy_match a b = fuzzyMatchB a b := by
  rw [fuzzy_match, fuzzyMatchB]
  by_cases h1 : titleKey a = titleKey b
  · simp [condEqual, h1]
  · by_cases h2 : (containsSub (titleKey a) (titleKey b) ||
        containsSub (titleKey b) (titleKey a)) = true
    · simp [condEqual, condContain, h1, h2]
    · by_cases h3 : simGtB (titleKey a) (titleKey b) 3 4 = true
      · simp [condEqual, condContain, condSimilar_eq_b, h1, h2, h3]
      · by_cases h4 : 0 < max (splitWs (titleKey a)).length (splitWs (titleKey b)).length ∧
            max (splitWs (titleKey a)).length (splitWs (titleKey b)).length <
              2 * commonWordCountB a b
        · simp [condEqual, condContain, condSimilar_eq_b, condWordOverlap_eq_b,
            h1, h2, h3, h4]
        · by_cases h5 : ((splitWs (titleKey a)) ++ (splitWs (titleKey b))).dedup ≠ [] ∧
              2 * ((splitWs (titleKey a)) ++ (splitWs (titleKey b))).dedup.length <
                5 * commonWordCountB a b
          · simp [condEqual, condContain, condSimilar_eq_b, condWordOverlap_eq_b,
              condJaccardish_eq_b, h1, h2, h3, h4, h5]
          · simp [condEqual, condContain, condSimilar_eq_b, condWordOverlap_eq_b,
              condJaccardish_eq_b, h1, h2, h3, h4, h5]

theorem calculate_similarity_main {s1 s2 : Str}
    (h1 : lowerStr (trim s1) ≠ []) (h2 : lowerStr (trim s2) ≠ [])
    (h3 : lowerStr (trim s1) ≠ lowerStr (trim s2)) :
    calculate_similarity s1 s2 =
      (simCommon (lowerStr (trim s1)) (lowerStr (trim s2)) : ℚ) /
        (simTotal (lowerStr (trim s1)) (lowerStr (trim s2)) : ℚ) := by
  have ht : simTotal (lowerStr (trim s1)) (lowerStr (trim s2)) ≠ 0 := by
    have := utf8Len_pos h1
    simp only [simTotal]
    omega
  simp only [calculate_similarity]
  rw [if_neg (by tauto), if_neg (by tauto), if_neg h3, if_neg ht]

/-- The similarity formula exactly as claim C5 words it: the count of
distinct characters of `a` that occur anywhere in `b`, divided by the
larger length measured in characters. -/
def similarity_claimed (a b : Str) : ℚ :=
  ((a.dedup.filter fun c => b.contains c).length : ℚ) /
    ((Nat.max a.length b.length : Nat) : ℚ)

/-- Claim C5 (counterexample): on `a = "aab"`, `b = "ab"` the code returns
1 (it counts the characters of `a` with multiplicity), while the claimed
distinct-character formula gives 2/3. -/
theorem similarity_multiplicity_cex :
    calculate_similarity ("aab".toList) ("ab".toList) = 1 ∧
      similarity_claimed ("aab".toList) ("ab".toList) = 2 / 3 ∧
      (2 : ℚ) / 3 ≠ 1 := by
  refine ⟨?_, ?_, by norm_num⟩
  · have hc : simCommon (lowerStr (trim ("aab".toList))) (lowerStr (trim ("ab".toList))) = 3 := by
      decide
    have ht : simTotal (lowerStr (trim ("aab".toList))) (lowerStr (trim ("ab".toList))) = 3 := by
      decide
    rw [calculate_similarity_main (by decide) (by decide) (by decide), hc, ht]
    norm_num
  · have hc : (("aab".toList).dedup.filter fun c => ("ab".toList).contains c).length = 2 := by
      decide
    have hl : Nat.max ("aab".toList).length ("ab".toList).length = 3 := by decide
    rw [similarity_claimed, hc, hl]
    norm_num

/-- The similarity function as amended: characters of the trimmed,
lowercased `a` counted with multiplicity that occur in the trimmed,
lowercased `b`, over the larger byte length, with the special cases for
empty and equal inputs. -/
def similarity_amended (a b : Str) : ℚ :=
  let t1 := lowerStr (trim a)
  let t2 := lowerStr (trim b)
  if t1 = [] ∧ t2 = [] then 1
  else if t1 = [] ∨ t2 = [] then 0
  else if t1 = t2 then 1
  else (simCommon t1 t2 : ℚ) / (simTotal t1 t2 : ℚ)

/-- Claim C5 (amended): `calculate_similarity` computes the
multiplicity-counting, byte-length-normalized ratio `similarity_amended`
(after trimming and lowercasing); it always lies in [0,1], and equals 1
on identical inputs (hence on any `x` with itself, empty or not). -/
theorem calculate_similarity_amended (a b : Str) :
    calculate_similarity a b = similarity_amended a b ∧
      0 ≤ calculate_similarity a b ∧ calculate_similarity a b ≤ 1 ∧
      calculate_similarity a a = 1 := by
  have hbound : ∀ x y : Str, 0 ≤ calculate_similarity x y ∧ calculate_similarity x y ≤ 1 := by
    intro x y
    simp only [calculate_similarity]
    split_ifs with h1 h2 h3 h4
    · norm_num
    · norm_num
    · norm_num
    · norm_num
    · constructor
      · exact div_nonneg (Nat.cast_nonneg _) (Nat.cast_nonneg _)
      · rw [div_le_one (by exact_mod_cast Nat.pos_of_ne_zero h4)]
        exact_mod_cast simCommon_le_simTotal _ _
  refine ⟨?_, (hbound a b).1, (hbound a b).2, ?_⟩
  · simp only [calculate_similarity, similarity_amended]
    split_ifs with h1 h2 h3 h4
    · rfl
    · rfl
    · rfl
    · exfalso
      have ht1 : lowerStr (trim a) ≠ [] := by tauto
      have := utf8Len_pos ht1
      simp only [simTotal] at h4
      omega
    · rfl
  · simp only [calculate_similarity]
    by_cases h1 : lowerStr (trim a) = []
    · rw [if_pos ⟨h1, h1⟩]
    · rw [if_neg (by tauto), if_neg (by tauto)]
      simp

/-! ## Lemmas about the stored source field: split, trim, join -/

theorem dropWhileIdem (p : Char → Bool) (l : Str) :
    List.dropWhile p (List.dropWhile p l) = List.dropWhile p l := by
  induction l with
  | nil => rfl
  | cons c rest ih =>
    by_cases hc : p c = true
    · rw [List.dropWhile_cons, if_pos hc, ih]
    · rw [List.dropWhile_cons, if_neg hc, List.dropWhile_cons, if_neg hc]

theorem trimLeftIdem (s : Str) : trimLeft (trimLeft s) = trimLeft s :=
  dropWhileIdem isWs s

theorem trimRightIdem (s : Str) : trimRight (trimRight s) = trimRight s := by
  rw [trimRight, trimRight, List.reverse_reverse, dropWhileIdem]

theorem trimRight_prefix (y : Str) : trimRight y <+: y := by
  have hsuf : y.reverse.dropWhile isWs <:+ y.reverse := List.dropWhile_suffix _
  have := List.reverse_prefix.2 hsuf
  rwa [List.reverse_reverse] at this

theorem trimLeft_fix_of (y : Str) (hy : trimLeft y = y) :
    trimLeft (trimRight y) = trimRight y := by
  cases y with
  | nil =>
    have : trimRight ([] : Str) = [] := rfl
    rw [this]
    rfl
  | cons c t =>
    have hc : isWs c = false := by
      by_contra hcc
      have hcc : isWs c = true := by simpa using hcc
      rw [trimLeft, List.dropWhile_cons, if_pos hcc] at hy
      have h1 := congrArg List.length hy
      have h2 := (List.dropWhile_sublist (l := t) isWs).length_le
      simp at h1
      omega
    cases hopt : trimRight (c :: t) with
    | nil => rfl
    | cons d u =>
      have hpre := trimRight_prefix (c :: t)
      rw [hopt] at hpre
      rcases hpre with ⟨tail0, htail⟩
      rw [List.cons_append] at htail
      injection htail with hd hrest
      rw [trimLeft, List.dropWhile_cons, hd, if_neg (by simp [hc])]

theorem trim_idem (s : Str) : trim (trim s) = trim s := by
  rw [trim, trim, trimLeft_fix_of (trimLeft s) (trimLeftIdem s), trimRightIdem]

theorem mem_trim_subset {a : Char} {s : Str} (h : a ∈ trim s) : a ∈ s := by
  rw [trim, trimRight] at h
  rw [List.mem_reverse] at h
  have h2 := (List.dropWhile_sublist isWs (l := (trimLeft s).reverse)).mem h
  rw [List.mem_reverse] at h2
  exact (List.dropWhile_sublist isWs (l := s)).mem h2

theorem trim_cons_space (w : Str) : trim (' ' :: w) = trim w := by
  rw [trim, trim, trimLeft, trimLeft, List.dropWhile_cons, if_pos (by decide)]

theorem splitComma_ne_nil (s : Str) : splitComma s ≠ [] := by
  induction s with
  | nil => simp [splitComma]
  | cons c rest ih =>
    rw [splitComma]
    split
    · simp
    · split <;> simp

theorem mem_splitComma_no_comma (s : Str) : ∀ w ∈ splitComma s, ',' ∉ w := by
  induction s with
  | nil =>
    intro w hw
    simp [splitComma] at hw
    subst hw
    simp
  | cons c rest ih =>
    intro w hw
    rw [splitComma] at hw
    by_cases hc : c = ','
    · rw [if_pos hc] at hw
      rcases List.mem_cons.1 hw with h | h
      · subst h; simp
      · exact ih w h
    · rw [if_neg hc] at hw
      cases hsp : splitComma rest with
      | nil => exact absurd hsp (splitComma_ne_nil rest)
      | cons w0 ws =>
        rw [hsp] at hw
        rcases List.mem_cons.1 hw with h | h
        · subst h
          intro hmem
          rcases List.mem_cons.1 hmem with h2 | h2
          · exact hc h2.symm
          · exact ih w0 (by rw [hsp]; simp) h2
        · exact ih w (by rw [hsp]; exact List.mem_cons_of_mem _ h)

theorem splitComma_no_comma {x : Str} (h : ',' ∉ x) : splitComma x = [x] := by
  induction x with
  | nil => rfl
  | cons c rest ih =>
    have hc : ¬ (c = ',') := fun hcc => h (List.mem_cons.2 (Or.inl hcc.symm))
    have hrest : ',' ∉ rest := fun hm => h (List.mem_cons_of_mem _ hm)
    rw [splitComma, if_neg hc, ih hrest]

theorem splitComma_append (x r : Str) (h : ',' ∉ x) :
    splitComma (x ++ ',' :: r) = x :: splitComma r := by
  induction x with
  | nil => simp [splitComma]
  | cons c rest ih =>
    have hc : ¬ (c = ',') := fun hcc => h (List.mem_cons.2 (Or.inl hcc.symm))
    have hrest : ',' ∉ rest := fun hm => h (List.mem_cons_of_mem _ hm)
    rw [List.cons_append, splitComma, if_neg hc, ih hrest]

theorem parse_entries_good {field w : Str} (hw : w ∈ parseSources field) :
    ',' ∉ w ∧ trim w = w := by
  rw [parseSources] at hw
  rcases List.mem_map.1 hw with ⟨w0, hw0, rfl⟩
  constructor
  · intro hmem
    exact mem_splitComma_no_comma field w0 hw0 (mem_trim_subset hmem)
  · exact trim_idem w0

theorem parseSources_cons_space (z : Str) :
    parseSources (' ' :: z) = parseSources z := by
  rw [parseSources, parseSources, splitComma]
  rw [if_neg (by decide)]
  cases hsp : splitComma z with
  | nil => exact absurd hsp (splitComma_ne_nil z)
  | cons w ws => simp [trim_cons_space]

theorem parseSources_sourceJoin :
    ∀ xs : List Str, xs ≠ [] → (∀ w ∈ xs, ',' ∉ w ∧ trim w = w) →
      parseSources (sourceJoin xs) = xs
  | [], h, _ => absurd rfl h
  | [x], _, hgood => by
    rw [sourceJoin, parseSources, splitComma_no_comma (hgood x (by simp)).1]
    simp [(hgood x (by simp)).2]
  | x :: y :: ys, _, hgood => by
    rw [sourceJoin, parseSources,
      splitComma_append x _ (hgood x (by simp)).1, List.map_cons,
      (hgood x (by simp)).2]
    have htail : (splitComma (' ' :: sourceJoin (y :: ys))).map trim = y :: ys := by
      have h1 : parseSources (' ' :: sourceJoin (y :: ys)) =
          parseSources (sourceJoin (y :: ys)) := parseSources_cons_space _
      rw [parseSources, parseSources] at h1
      rw [h1]
      have h2 := parseSources_sourceJoin (y :: ys) (by simp)
        (fun w hw => hgood w (by simp [List.mem_cons.1 hw]))
      rw [parseSources] at h2
      exact h2
    rw [htail]

theorem upd_source_of_mem {field n : Str} (h : n ∈ parseSources field) :
    update_existing_competition_source field n = none := by
  simp only [update_existing_competition_source]
  rw [if_pos h]

theorem upd_source_of_not_mem {field n : Str} (h : n ∉ parseSources field) :
    update_existing_competition_source field n =
      some (sourceJoin (parseSources field ++ [n])) := by
  simp only [update_existing_competition_source]
  rw [if_neg h]

theorem parse_upd (field : Str) {n : Str} (hc : ',' ∉ n) (ht : trim n = n) :
    parseSources (sourceJoin (parseSources field ++ [n])) =
      parseSources field ++ [n] := by
  refine parseSources_sourceJoin _ (by simp) ?_
  intro w hw
  rcases List.mem_append.1 hw with h | h
  · exact parse_entries_good h
  · rw [List.mem_singleton.1 h]
    exact ⟨hc, ht⟩

/-- Claim C2 (counterexample): the insertion-time membership comparison is
not case-normalized: merging "HKU" into a record whose provenance already
holds the case-variant "hku" appends a second, case-insensitively equal,
identifier. -/
theorem source_merge_case_sensitive_cex :
    lowerStr ("HKU".toList) = lowerStr ("hku".toList) ∧
      update_existing_competition_source ("hku".toList) ("HKU".toList) =
        some ("hku, HKU".toList) := by
  constructor
  · decide
  · decide

/-- Claim C2 (amended): the provenance set never gains an exact duplicate:
the membership comparison at insertion time is case-sensitive string
equality on the trimmed entries (not case-normalized), the stored values
preserve the original casing, and an id is appended exactly when it is
not already present verbatim. -/
theorem source_merge_exact (field n : Str) (hc : ',' ∉ n) (ht : trim n = n) :
    (n ∈ parseSources field → update_existing_competition_source field n = none) ∧
    (n ∉ parseSources field →
      update_existing_competition_source field n =
        some (sourceJoin (parseSources field ++ [n])) ∧
      parseSources (sourceJoin (parseSources field ++ [n])) =
        parseSources field ++ [n] ∧
      ((parseSources field).Nodup → (parseSources field ++ [n]).Nodup)) := by
  constructor
  · intro hmem
    exact upd_source_of_mem hmem
  · intro hmem
    refine ⟨upd_source_of_not_mem hmem, parse_upd field hc ht, ?_⟩
    intro hnd
    simp [List.nodup_append, hnd, hmem]

/-- Witness for `source_merge_exact`: merging "CTFTime" into the stored
field "HKU" writes back "HKU, CTFTime". -/
theorem source_merge_exact_witness :
    update_existing_competition_source ("HKU".toList) ("CTFTime".toList) =
      some ("HKU, CTFTime".toList) := by
  have h := (source_merge_exact ("HKU".toList) ("CTFTime".toList)
    (by decide) (by decide)).2 (by decide)
  rw [h.1]
  decide

/-! ## Registry lemmas -/

theorem run_scraper_lower (m : Registry) (q1 q2 : Str)
    (h : lowerStr q1 = lowerStr q2) : run_scraper m q1 = run_scraper m q2 := by
  rw [run_scraper, run_scraper, h]

theorem find_filter_other (m : Registry) (k lq : Str) (hne : k ≠ lq) :
    List.find? (fun p => p.1 = lq) (m.filter fun p => p.1 ≠ k) =
      List.find? (fun p => p.1 = lq) m := by
  induction m with
  | nil => rfl
  | cons p ps ih =>
    rw [List.filter_cons]
    by_cases hk : p.1 = k
    · rw [if_neg (by simp [hk]), ih,
        List.find?_cons_of_neg _ (by simp [hk]; exact hne)]
    · rw [if_pos (by simp [hk])]
      by_cases hp : p.1 = lq
      · rw [List.find?_cons_of_pos _ (by simp [hp]),
          List.find?_cons_of_pos _ (by simp [hp])]
      · rw [List.find?_cons_of_neg _ (by simp [hp]),
          List.find?_cons_of_neg _ (by simp [hp]), ih]

theorem run_scraper_register (m : Registry) (s q : Str) :
    run_scraper (register_scraper m s) q =
      if lowerStr s = lowerStr q then some s else run_scraper m q := by
  rw [register_scraper, hmInsert, run_scraper]
  by_cases h : lowerStr s = lowerStr q
  · rw [if_pos h, List.find?_cons_of_pos _ (by simp [h])]
    rfl
  · rw [if_neg h, List.find?_cons_of_neg _ (by simp [h]),
      find_filter_other _ _ _ h, run_scraper]

theorem run_scraper_build_none (names : List Str) (q : Str) :
    ∀ m : Registry, run_scraper (List.foldl register_scraper m names) q = none ↔
      (run_scraper m q = none ∧ ∀ n ∈ names, lowerStr n ≠ lowerStr q) := by
  induction names with
  | nil =>
    intro m
    simp
  | cons s ss ih =>
    intro m
    rw [List.foldl_cons, ih (register_scraper m s), run_scraper_register]
    by_cases h : lowerStr s = lowerStr q
    · simp [h]
    · simp only [if_neg h, List.mem_cons]
      constructor
      · rintro ⟨h1, h2⟩
        refine ⟨h1, ?_⟩
        rintro n (rfl | hn)
        · exact h
        · exact h2 n hn
      · rintro ⟨h1, h2⟩
        exact ⟨h1, fun n hn => h2 n (Or.inr hn)⟩

/-- Claim C10: scraper lookup is case-insensitive: scrapers are registered
under the lower-cased form of their name and `run_scraper` lower-cases the
request, so any casing variant of a request resolves identically, and the
not-found error arises exactly when no registered name matches the request
case-insensitively. -/
theorem scraper_lookup_case_insensitive (names : List Str) (q1 q2 : Str)
    (h : lowerStr q1 = lowerStr q2) :
    run_scraper (buildManager names) q1 = run_scraper (buildManager names) q2 ∧
      (run_scraper (buildManager names) q1 = none ↔
        ∀ n ∈ names, lowerStr n ≠ lowerStr q1) := by
  constructor
  · exact run_scraper_lower _ _ _ h
  · rw [buildManager, run_scraper_build_none]
    simp [run_scraper]

/-! ## Lemmas about `splitWs`, `wsJoin`, `stripTag`: the idempotence claim -/

theorem tagTail_mem_rb {r : Str} (h : tagTail r = true) : ']' ∈ r := by
  induction r with
  | nil => cases h
  | cons c rest ih =>
    rw [tagTail] at h
    simp only [Bool.or_eq_true, Bool.and_eq_true, decide_eq_true_eq] at h
    rcases h with ⟨h1, -⟩ | ⟨-, h2⟩
    · simp [h1]
    · exact List.mem_cons_of_mem _ (ih h2)

theorem matchAt_mem_rb {s : Str} (h : matchAt s = true) : ']' ∈ s := by
  rw [matchAt] at h
  cases hd : s.dropWhile isWs with
  | nil => rw [hd] at h; cases h
  | cons c rest =>
    rw [hd] at h
    simp only [Bool.and_eq_true, decide_eq_true_eq] at h
    have hmem : ']' ∈ s.dropWhile isWs := by
      rw [hd]
      exact List.mem_cons_of_mem _ (tagTail_mem_rb h.2)
    exact (List.dropWhile_sublist isWs).mem hmem

theorem stripTag_eq_self {s : Str} (h : ']' ∉ s) : stripTag s = s := by
  induction s with
  | nil => rfl
  | cons c rest ih =>
    rw [stripTag,
      if_neg (fun hm => h (matchAt_mem_rb hm)),
      ih (fun hm => h (List.mem_cons_of_mem _ hm))]

theorem splitWsAux_words (s : Str) : ∀ acc, (∀ c ∈ acc, isWs c = false) →
    ∀ w ∈ splitWsAux acc s, w ≠ [] ∧ ∀ c ∈ w, isWs c = false := by
  induction s with
  | nil =>
    intro acc hacc w hw
    rw [splitWsAux] at hw
    by_cases ha : acc = []
    · rw [if_pos ha] at hw
      cases hw
    · rw [if_neg ha] at hw
      rw [List.mem_singleton.1 hw]
      refine ⟨by simpa using ha, ?_⟩
      intro c hc
      exact hacc c (List.mem_reverse.1 hc)
  | cons c rest ih =>
    intro acc hacc w hw
    rw [splitWsAux] at hw
    by_cases hc : isWs c = true
    · rw [if_pos hc] at hw
      by_cases ha : acc = []
      · rw [if_pos ha] at hw
        exact ih [] (by simp) w hw
      · rw [if_neg ha] at hw
        rcases List.mem_cons.1 hw with rfl | hw2
        · refine ⟨by simpa using ha, ?_⟩
          intro d hd
          exact hacc d (List.mem_reverse.1 hd)
        · exact ih [] (by simp) w hw2
    · rw [if_neg hc] at hw
      refine ih (c :: acc) ?_ w hw
      intro d hd
      rcases List.mem_cons.1 hd with rfl | hd2
      · simpa using hc
      · exact hacc d hd2

theorem splitWs_words (s : Str) :
    ∀ w ∈ splitWs s, w ≠ [] ∧ ∀ c ∈ w, isWs c = false :=
  splitWsAux_words s [] (by simp)

theorem splitWsAux_chunk (w : Str) (hw : ∀ c ∈ w, isWs c = false) :
    ∀ acc r, splitWsAux acc (w ++ r) = splitWsAux (w.reverse ++ acc) r := by
  induction w with
  | nil =>
    intro acc r
    simp
  | cons c cs ih =>
    intro acc r
    rw [List.cons_append, splitWsAux, if_neg (by simp [hw c (by simp)]),
      ih (fun d hd => hw d (List.mem_cons_of_mem _ hd)) (c :: acc) r,
      List.reverse_cons, List.append_assoc, List.singleton_append]

theorem splitWsAux_allWs (t : Str) (ht : ∀ c ∈ t, isWs c = true) :
    ∀ acc, splitWsAux acc t = if acc = [] then [] else [acc.reverse] := by
  induction t with
  | nil =>
    intro acc
    rfl
  | cons c cs ih =>
    intro acc
    have hcs : ∀ d ∈ cs, isWs d = true := fun d hd => ht d (List.mem_cons_of_mem _ hd)
    rw [splitWsAux, if_pos (ht c (by simp))]
    by_cases ha : acc = []
    · rw [if_pos ha, if_pos ha, ih hcs []]
      rfl
    · rw [if_neg ha, if_neg ha, ih hcs []]
      rfl

theorem splitWsAux_append_ws (x t : Str) (ht : ∀ c ∈ t, isWs c = true) :
    ∀ acc, splitWsAux acc (x ++ t) = splitWsAux acc x := by
  induction x with
  | nil =>
    intro acc
    rw [List.nil_append, splitWsAux_allWs t ht acc, splitWsAux]
  | cons c cs ih =>
    intro acc
    rw [List.cons_append, splitWsAux, splitWsAux]
    by_cases hc : isWs c = true
    · rw [if_pos hc, if_pos hc]
      by_cases ha : acc = []
      · rw [if_pos ha, if_pos ha, ih]
      · rw [if_neg ha, if_neg ha, ih]
    · rw [if_neg hc, if_neg hc, ih]

theorem splitWs_trimLeft (y : Str) : splitWs (trimLeft y) = splitWs y := by
  rw [splitWs, splitWs, trimLeft]
  induction y with
  | nil => rfl
  | cons c rest ih =>
    by_cases hc : isWs c = true
    · rw [List.dropWhile_cons, if_pos hc,
        show splitWsAux ([] : Str) (c :: rest) = splitWsAux [] rest from by
          rw [splitWsAux, if_pos hc, if_pos rfl]]
      exact ih
    · rw [List.dropWhile_cons, if_neg hc]

theorem trimRight_decomp (y : Str) :
    ∃ t, y = trimRight y ++ t ∧ ∀ c ∈ t, isWs c = true := by
  refine ⟨(y.reverse.takeWhile isWs).reverse, ?_, ?_⟩
  · rw [trimRight]
    conv_lhs => rw [← List.reverse_reverse y,
      ← List.takeWhile_append_dropWhile (p := isWs) (l := y.reverse)]
    rw [List.reverse_append]
  · intro c hc
    rw [List.mem_reverse] at hc
    exact List.mem_takeWhile_imp hc

theorem splitWs_trim (y : Str) : splitWs (trim y) = splitWs y := by
  rw [trim]
  obtain ⟨t, hdec, ht⟩ := trimRight_decomp (trimLeft y)
  have h1 : splitWs (trimRight (trimLeft y) ++ t) = splitWs (trimRight (trimLeft y)) :=
    splitWsAux_append_ws _ t ht []
  calc splitWs (trimRight (trimLeft y))
      = splitWs (trimRight (trimLeft y) ++ t) := h1.symm
    _ = splitWs (trimLeft y) := by rw [← hdec]
    _ = splitWs y := splitWs_trimLeft y

theorem splitWs_wsJoin :
    ∀ ws : List Str, (∀ w ∈ ws, w ≠ [] ∧ ∀ c ∈ w, isWs c = false) →
      splitWs (wsJoin ws) = ws
  | [], _ => rfl
  | [w], hgood => by
    rw [wsJoin, splitWs, show w = w ++ ([] : Str) from (List.append_nil w).symm,
      splitWsAux_chunk w (hgood w (by simp)).2 [] [], splitWsAux,
      if_neg (by simp [(hgood w (by simp)).1])]
    simp
  | w :: w2 :: ws, hgood => by
    rw [wsJoin, splitWs,
      splitWsAux_chunk w (hgood w (by simp)).2 [] (' ' :: wsJoin (w2 :: ws)),
      splitWsAux, if_pos (by decide), if_neg (by simp [(hgood w (by simp)).1]),
      show ((w.reverse ++ ([] : Str)).reverse) = w from by simp,
      show splitWsAux ([] : Str) (wsJoin (w2 :: ws)) = splitWs (wsJoin (w2 :: ws)) from rfl,
      splitWs_wsJoin (w2 :: ws) (fun v hv => hgood v (List.mem_cons_of_mem _ hv))]

theorem foldl_removeAll_fixed :
    ∀ (ps : List Str) (s : Str), (∀ p ∈ ps, containsSub s p = false) →
      ps.foldl (fun s p => removeAll p s) s = s := by
  intro ps
  induction ps with
  | nil =>
    intro s _
    rfl
  | cons p rest ih =>
    intro s h
    rw [List.foldl_cons, removeAll_eq_self (h p (by simp))]
    exact ih s (fun q hq => h q (List.mem_cons_of_mem _ hq))

theorem trim_infix_self (s : Str) : trim s <:+: s := by
  have h1 : trimLeft s <:+ s := List.dropWhile_suffix _
  have h2 : trim s <+: trimLeft s := trimRight_prefix _
  exact h2.isInfix.trans h1.isInfix

/-- Claim C6 (counterexample): normalization is not idempotent: removing a
stop-list substring can create a fresh occurrence of a stop-list entry,
e.g. "TThehe" normalizes to "The", which normalizes further to "". -/
theorem clean_not_idempotent_cex :
    clean_competition_name (clean_competition_name ("TThehe".toList)) ≠
      clean_competition_name ("TThehe".toList) := by decide

/-- Claim C6 (amended): normalization is idempotent on every title whose
normalized form contains no stop-list entry as a substring and no closing
bracket; in general it is not idempotent, because a substring removal can
create a new stop-list occurrence. -/
theorem clean_idempotent_on_fixed (t : Str)
    (hp : ∀ p ∈ stopPatterns, containsSub (clean_competition_name t) p = false)
    (hb : ']' ∉ clean_competition_name t) :
    clean_competition_name (clean_competition_name t) = clean_competition_name t := by
  have h1 : stripTag (clean_competition_name t) = clean_competition_name t :=
    stripTag_eq_self hb
  have h2 : ∀ p ∈ stopPatterns, containsSub (trim (clean_competition_name t)) p = false :=
    fun p hpp => containsSub_false_of_infix (trim_infix_self _) (hp p hpp)
  have hkey : splitWs (clean_competition_name t) =
      splitWs (trim (stopPatterns.foldl (fun s p => removeAll p s)
        (trim (stripTag t)))) :=
    splitWs_wsJoin _ (splitWs_words _)
  show wsJoin (splitWs (trim (stopPatterns.foldl (fun s p => removeAll p s)
      (trim (stripTag (clean_competition_name t)))))) = clean_competition_name t
  rw [h1, foldl_removeAll_fixed stopPatterns _ h2, trim_idem, splitWs_trim, hkey]
  rfl

/-- Witness for `clean_idempotent_on_fixed` at the title "Hello World",
whose normalized form is stop-list-free and bracket-free. -/
theorem clean_idempotent_on_fixed_witness :
    (∀ p ∈ stopPatterns,
        containsSub (clean_competition_name ("Hello World".toList)) p = false) ∧
      (']' ∉ clean_competition_name ("Hello World".toList)) ∧
      clean_competition_name (clean_competition_name ("Hello World".toList)) =
        clean_competition_name ("Hello World".toList) :=
  ⟨by decide, by decide, clean_idempotent_on_fixed ("Hello World".toList)
    (by decide) (by decide)⟩

/-! ## The frame property of a provenance merge -/

def dfltComp : Competition :=
  ⟨none, [], 0, [], [], none, none, none, none, none, none⟩

theorem getD_map {α β : Type} (f : α → β) (l : List α) (j : Nat) (d : α) (d2 : β)
    (hj : j < l.length) : (l.map f).getD j d2 = f (l.getD j d) := by
  induction l generalizing j with
  | nil => simp at hj
  | cons x xs ih =>
    cases j with
    | zero => rfl
    | succ m =>
      rw [List.map_cons, List.getD_cons_succ, List.getD_cons_succ]
      exact ih m (by simpa using hj)

theorem getD_mem {α : Type} {l : List α} {j : Nat} (hj : j < l.length) (d : α) :
    l.getD j d ∈ l := by
  induction l generalizing j with
  | nil => simp at hj
  | cons x xs ih =>
    cases j with
    | zero => simp
    | succ m =>
      rw [List.getD_cons_succ]
      exact List.mem_cons_of_mem _ (ih (by simpa using hj))

/-- Claim C3: folding a matching candidate from a source not yet recorded
into the catalog updates each matched record's provenance to exactly the
old list plus the new source id, changes no other field of that record
(description, location and the rest are preserved verbatim), leaves
non-matching records untouched, keeps the catalog size unchanged, and
queues no insertion for the candidate. -/
theorem merge_frame (catalog : List Competition) (cand : Competition) (n : Str)
    (j k : Nat) (hj : j < catalog.length) (hk : k < catalog.length)
    (hmatch : fuzzy_match cand.name (catalog.getD j dfltComp).name = true)
    (hkmatch : fuzzy_match cand.name (catalog.getD k dfltComp).name = false)
    (hnotin : n ∉ parseSources (catalog.getD j dfltComp).source)
    (hcomma : ',' ∉ n) (htrim : trim n = n) :
    (scrapeStep catalog cand n).2 = none ∧
    (scrapeStep catalog cand n).1.length = catalog.length ∧
    (scrapeStep catalog cand n).1.getD j dfltComp =
      { catalog.getD j dfltComp with
        source := sourceJoin (parseSources (catalog.getD j dfltComp).source ++ [n]) } ∧
    parseSources ((scrapeStep catalog cand n).1.getD j dfltComp).source =
      parseSources (catalog.getD j dfltComp).source ++ [n] ∧
    (scrapeStep catalog cand n).1.getD k dfltComp = catalog.getD k dfltComp := by
  have hdup : is_duplicate_competition catalog cand = true := by
    rw [is_duplicate_competition, List.any_eq_true]
    exact ⟨catalog.getD j dfltComp, getD_mem hj _, hmatch⟩
  have hstep : scrapeStep catalog cand n =
      (updateMatchingSources catalog cand.name n, none) := by
    rw [scrapeStep, if_pos hdup]
  rw [hstep]
  dsimp only
  refine ⟨rfl, ?_, ?_, ?_, ?_⟩
  · rw [updateMatchingSources, List.length_map]
  · rw [updateMatchingSources, getD_map _ _ j dfltComp _ hj]
    rw [if_pos hmatch, upd_source_of_not_mem hnotin]
  · rw [updateMatchingSources, getD_map _ _ j dfltComp _ hj]
    rw [if_pos hmatch, upd_source_of_not_mem hnotin]
    exact parse_upd _ hcomma htrim
  · rw [updateMatchingSources, getD_map _ _ k dfltComp _ hk]
    rw [if_neg (by rw [hkmatch]; simp)]

def demoExisting : Competition :=
  { id := some 1, name := "Crypto CTF 2025 [HKU]".toList, date := 0,
    host := "HKU".toList, source := "HKU".toList,
    description := some ("Original description".toList), signup_deadline := none,
    location := some ("Hong Kong".toList), registration_link := none,
    max_participants := none, status := some ("upcoming".toList) }

def demoOther : Competition :=
  { id := some 2, name := "Underwater Photography Contest [HKU]".toList, date := 0,
    host := "HKU".toList, source := "HKU".toList, description := none,
    signup_deadline := none, location := none, registration_link := none,
    max_participants := none, status := some ("upcoming".toList) }

def demoCand : Competition :=
  { id := none, name := "Crypto CTF 2025 [CTF]".toList, date := 0,
    host := "CTFTime".toList, source := "CTFTime".toList, description := none,
    signup_deadline := none, location := some ("Online".toList),
    registration_link := none, max_participants := none,
    status := some ("upcoming".toList) }

/-- Witness for `merge_frame`: merging the CTFTime candidate into a
two-record catalog whose first record matches and whose second does not. -/
theorem merge_frame_witness :
    (scrapeStep [demoExisting, demoOther] demoCand ("CTFTime".toList)).2 = none ∧
    (scrapeStep [demoExisting, demoOther] demoCand ("CTFTime".toList)).1.length =
      ([demoExisting, demoOther] : List Competition).length ∧
    (scrapeStep [demoExisting, demoOther] demoCand ("CTFTime".toList)).1.getD 0 dfltComp =
      { ([demoExisting, demoOther] : List Competition).getD 0 dfltComp with
        source := sourceJoin (parseSources
          (([demoExisting, demoOther] : List Competition).getD 0 dfltComp).source ++
            ["CTFTime".toList]) } ∧
    parseSources ((scrapeStep [demoExisting, demoOther] demoCand
        ("CTFTime".toList)).1.getD 0 dfltComp).source =
      parseSources (([demoExisting, demoOther] : List Competition).getD 0 dfltComp).source ++
        ["CTFTime".toList] ∧
    (scrapeStep [demoExisting, demoOther] demoCand ("CTFTime".toList)).1.getD 1 dfltComp =
      ([demoExisting, demoOther] : List Competition).getD 1 dfltComp :=
  merge_frame [demoExisting, demoOther] demoCand ("CTFTime".toList) 0 1
    (by decide) (by decide)
    (by rw [fuzzy_match_eq_b]; decide)
    (by rw [fuzzy_match_eq_b]; decide)
    (by decide) (by decide) (by decide)

/-- Witness for `scraper_lookup_case_insensitive`: with the three scrapers
of `ScraperManager::new` registered, the request "hKu" behaves exactly
like "HKU", and the not-found condition is characterised. -/
theorem scraper_lookup_case_insensitive_witness :
    run_scraper (buildManager ["HKU".toList, "HKUST".toList, "CTFTime".toList])
        ("hKu".toList) =
      run_scraper (buildManager ["HKU".toList, "HKUST".toList, "CTFTime".toList])
        ("HKU".toList) ∧
      (run_scraper (buildManager ["HKU".toList, "HKUST".toList, "CTFTime".toList])
          ("hKu".toList) = none ↔
        ∀ n ∈ ["HKU".toList, "HKUST".toList, "CTFTime".toList],
          lowerStr n ≠ lowerStr ("hKu".toList)) :=
  scraper_lookup_case_insensitive _ _ _ (by decide)

end Competitions
